import Mathlib

/-!
Verification of the SCEL cell-dictionary decoder (`src/scel_parser.py`).

The byte stream is modelled as a `List Nat` (one `Nat` per byte), strings as
lists of Unicode code points (`Str := List Nat`), and the Python file object
as a `Cursor` (buffer plus position).  Python's `f.read(n)` returns at most
`n` bytes and advances by however many bytes it actually returned; `f.seek`
moves anywhere (including past the end); `struct.unpack` raises when given
fewer bytes than the format needs, which we model with `Option`.

The regional fallback decoder (`data.decode('gbk', errors='ignore')`, which
never raises) is kept abstract: every definition that can reach it takes a
`gbk : List Nat → Str` parameter, so every theorem quantifies over it and no
claim below depends on the contents of GBK's decoding tables.
-/

/-- A decoded string: the sequence of Unicode code points. -/
abbrev Str := List Nat

/-- The Python binary file object: an immutable byte buffer plus the
current read position (`scel_parser.py` opens the file with `'rb'`). -/
structure Cursor where
  buf : List Nat
  pos : Nat
deriving Repr, DecidableEq

/-- `f.seek(p)`: absolute positioning, allowed past the end of the buffer. -/
def Cursor.seek (c : Cursor) (p : Nat) : Cursor := ⟨c.buf, p⟩

/-- The bytes from the current position to the end of the buffer. -/
def Cursor.rest (c : Cursor) : List Nat := c.buf.drop c.pos

/-- `f.read(n)`: returns up to `n` bytes and advances by the number of
bytes actually read (fewer than `n` only at end of buffer). -/
def Cursor.read (c : Cursor) (n : Nat) : List Nat × Cursor :=
  let taken := (c.buf.drop c.pos).take n
  (taken, ⟨c.buf, c.pos + taken.length⟩)

/-- `f.tell() == len(buf) - |rest|`; number of bytes still available. -/
def Cursor.remaining (c : Cursor) : Nat := c.buf.length - c.pos

/-- Little-endian 32-bit value of a 4-byte read (`struct.unpack('<I', ·)`). -/
def u32 (bs : List Nat) : Nat :=
  bs.getD 0 0 + 256 * bs.getD 1 0 + 65536 * bs.getD 2 0 + 16777216 * bs.getD 3 0

/-- Error-handler mode of a Python `bytes.decode` call: `'strict'` raises on
malformed input, `'ignore'` skips the malformed unit and continues. -/
inductive DecodeMode where
  | strict
  | ignoreErr
deriving Repr, DecidableEq

/-- First stage of UTF-16-LE decoding: pair consecutive bytes little-endian
into 16-bit code units; `.2` records whether a lone trailing byte was left
over (truncated data). -/
def utf16Units : List Nat → List Nat × Bool
  | [] => ([], false)
  | [_] => ([], true)
  | b0 :: b1 :: rest =>
    let (us, oddTail) := utf16Units rest
    ((b0 + 256 * b1) :: us, oddTail)

/-- Second stage of UTF-16-LE decoding: a unit outside the surrogate range
is a code point; a high surrogate followed by a low surrogate combines into
a supplementary code point; a lone surrogate is malformed — `none` under
`'strict'`, skipped under `'ignore'`. -/
def decodeUnits (mode : DecodeMode) : List Nat → Option (List Nat)
  | [] => some []
  | [u] =>
    if u < 0xD800 ∨ 0xDFFF < u then some [u]
    else
      match mode with
      | .strict => none
      | .ignoreErr => some []
  | u :: u2 :: us =>
    if u < 0xD800 ∨ 0xDFFF < u then
      (decodeUnits mode (u2 :: us)).map (u :: ·)
    else if u ≤ 0xDBFF then
      if 0xDC00 ≤ u2 ∧ u2 ≤ 0xDFFF then
        (decodeUnits mode us).map
          ((0x10000 + (u - 0xD800) * 0x400 + (u2 - 0xDC00)) :: ·)
      else
        match mode with
        | .strict => none
        | .ignoreErr => decodeUnits mode (u2 :: us)
    else
      match mode with
      | .strict => none
      | .ignoreErr => decodeUnits mode (u2 :: us)

/-- Python's `bytes.decode('utf-16-le', errors)`: pair the bytes into units
and process surrogates; a trailing odd byte is truncated data — an error
under `'strict'`, dropped under `'ignore'`. -/
def utf16le (mode : DecodeMode) (bs : List Nat) : Option (List Nat) :=
  let (us, oddTail) := utf16Units bs
  if oddTail then
    match mode with
    | .strict => none
    | .ignoreErr => decodeUnits .ignoreErr us
  else decodeUnits mode us

/-- The code points Python's `str.strip()` removes (characters whose
`str.isspace()` is true). -/
def isPySpace (c : Nat) : Bool :=
  [0x09, 0x0A, 0x0B, 0x0C, 0x0D, 0x1C, 0x1D, 0x1E, 0x1F, 0x20, 0x85, 0xA0,
   0x1680, 0x2000, 0x2001, 0x2002, 0x2003, 0x2004, 0x2005, 0x2006, 0x2007,
   0x2008, 0x2009, 0x200A, 0x2028, 0x2029, 0x202F, 0x205F, 0x3000].contains c

/-- Python `text.strip()`: drop leading and trailing whitespace. -/
def pyStrip (s : Str) : Str :=
  ((s.dropWhile isPySpace).reverse.dropWhile isPySpace).reverse

/-- Lines 44-47 of `scel_parser.py`: truncate at the first null code point
(`text[:text.find('\x00')]` when a null exists, the whole text otherwise). -/
def truncNull (s : Str) : Str := s.takeWhile (fun x => x != 0)

/-- Line 141 / line 80: `text.replace('\x00', '')` — remove every null. -/
def removeNulls (s : Str) : Str := s.filter (fun x => x != 0)

/-- Lines 38-42 of `scel_parser.py`: the Metadata Reader's decode —
`data.decode('utf-16-le', errors='ignore')`, with a `gbk` fallback in the
`except UnicodeDecodeError` branch. -/
def decodeFieldBytes (gbk : List Nat → Str) (data : List Nat) : Str :=
  match utf16le .ignoreErr data with
  | some t => t
  | none => gbk data

/-- Lines 135-138 / 72-77 of `scel_parser.py`: strict UTF-16-LE decode with
GBK fallback on `UnicodeDecodeError`. -/
def decodeWordBytes (gbk : List Nat → Str) (data : List Nat) : Str :=
  match utf16le .strict data with
  | some t => t
  | none => gbk data

/-- `_read_scel_field_text` (lines 31-50): save the position, seek to the
field, read up to `length` bytes, decode, truncate at the first null, strip,
and restore the saved position. -/
def readFieldText (gbk : List Nat → Str) (c : Cursor) (seekPos length : Nat) :
    Str × Cursor :=
  let savedPos := c.pos
  let c1 := c.seek seekPos
  let (data, _) := c1.read length
  (pyStrip (truncNull (decodeFieldBytes gbk data)), ⟨c.buf, savedPos⟩)

/-- The metadata record built by `read_scel_info`. -/
structure ScelInfo where
  countWord : Nat
  name : Str
  type : Str
  info : Str
  sample : Str
deriving Repr, DecidableEq

/-- `read_scel_info` (lines 14-29): seek to 0x124, read the 4-byte word
count (`struct.unpack` raises — `none` — on a short read), then read the
four fixed-offset text fields.  The text-field reads never fail. -/
def read_scel_info (gbk : List Nat → Str) (buf : List Nat) : Option ScelInfo :=
  let c := Cursor.seek ⟨buf, 0⟩ 0x124
  if ((c.read 4).1).length < 4 then none
  else
    let cw := (c.read 4).1
    let r1 := readFieldText gbk (c.read 4).2 0x130 64
    let r2 := readFieldText gbk r1.2 0x338 64
    let r3 := readFieldText gbk r2.2 0x540 1024
    let r4 := readFieldText gbk r3.2 0xD40 1024
    some ⟨u32 cw, r1.1, r2.1, r3.1, r4.1⟩

/-- The phonetic table: built by `py_dict[idx] = py_str` assignments; we
prepend, and look up the most recent binding, matching Python's
last-write-wins dict semantics. -/
abbrev PyDict := List (Nat × Str)

/-- `idx in py_dict` / `py_dict[idx]`: the current binding of `idx`. -/
def lookupIdx (d : PyDict) (idx : Nat) : Option Str :=
  (d.find? (fun p => p.1 == idx)).map (·.2)

/-- Lines 117-121 of `scel_parser.py`: resolve one phonetic index — the
table's spelling when present, else the synthetic one-character fallback
`chr(97 + idx % 26)`. -/
def lookupPy (d : PyDict) (idx : Nat) : Str :=
  match lookupIdx d idx with
  | some s => s
  | none => [97 + idx % 26]

/-- Lines 111-121 of `scel_parser.py`: interpret consecutive little-endian
byte pairs as phonetic indices and resolve each; an odd trailing byte is
discarded (`if i + 1 >= len(py_data): break`). -/
def parseIndices (d : PyDict) : List Nat → List Str
  | b0 :: b1 :: rest => lookupPy d (b0 + 256 * b1) :: parseIndices d rest
  | _ => []

/-- The `WordLibrary` dataclass (lines 8-12). -/
structure WordLibrary where
  word : Str
  pinyin : List Str
  rank : Nat
deriving Repr, DecidableEq

/-- Lines 124-150 of `scel_parser.py`: the homophone loop.  Each iteration
reads a 2-byte word length (breaking out of the loop if fewer than 2 bytes
were available), reads that many bytes as the word (best effort), strict
UTF-16-LE decodes with GBK fallback, strips nulls, skips the 12-byte
trailer, and appends a `WordLibrary` carrying a copy of the group's
spelling sequence and rank 1. -/
def parseHomophones (gbk : List Nat → Str) (c : Cursor) (wordPy : List Str) :
    Nat → List WordLibrary × Cursor
  | 0 => ([], c)
  | n + 1 =>
    let (lenData, c1) := c.read 2
    if lenData.length < 2 then ([], c1)
    else
      let wordLen := lenData.getD 0 0 + 256 * lenData.getD 1 0
      let (wordData, c2) := c1.read wordLen
      let word := removeNulls (decodeWordBytes gbk wordData)
      let c3 := (c2.read 12).2
      let (restWords, c4) := parseHomophones gbk c3 wordPy n
      (⟨word, wordPy, 1⟩ :: restWords, c4)

/-- `_parse_pinyin_word` (lines 96-152): read the 4-byte group header
(returning no entries if fewer than 4 bytes are available), split it into
`same_py_count` and `py_index_count`, read the phonetic-index bytes (best
effort), resolve them into the group's spelling sequence, then run the
homophone loop. -/
def parsePinyinWord (gbk : List Nat → Str) (c : Cursor) (d : PyDict) :
    List WordLibrary × Cursor :=
  let (header, c1) := c.read 4
  if header.length < 4 then ([], c1)
  else
    let samePyCount := header.getD 0 0 + 256 * header.getD 1 0
    let pyIndexCount := header.getD 2 0 + 256 * header.getD 3 0
    let (pyData, c2) := c1.read pyIndexCount
    let wordPy := parseIndices d pyData
    parseHomophones gbk c2 wordPy samePyCount

/-- Lines 84-92 of `scel_parser.py`: the group loop — `dict_len` iterations
of `_parse_pinyin_word`, concatenating the groups' entries in file order.
`_parse_pinyin_word` raises no exception on any input (every read is best
effort and every decode has a total fallback), so the `except` branch with
its odd-position realignment is unreachable and the loop is plain
iteration. -/
def parseGroups (gbk : List Nat → Str) (c : Cursor) (d : PyDict) :
    Nat → List WordLibrary × Cursor
  | 0 => ([], c)
  | n + 1 =>
    let (ws, c1) := parsePinyinWord gbk c d
    let (restWs, c2) := parseGroups gbk c1 d n
    (ws ++ restWs, c2)

/-- Lines 67-81 of `scel_parser.py`: the phonetic-table loop.  Each entry is
a 2-byte index, a 2-byte size (either `struct.unpack` raising — `none` — on
a short read) and `size` bytes decoded strict-UTF-16-LE with GBK fallback,
nulls removed and stripped; bindings overwrite earlier ones. -/
def parsePyTable (gbk : List Nat → Str) : Nat → Cursor → PyDict → Option (PyDict × Cursor)
  | 0, c, d => some (d, c)
  | n + 1, c, d =>
    let (idxB, c1) := c.read 2
    if idxB.length < 2 then none
    else
      let idx := idxB.getD 0 0 + 256 * idxB.getD 1 0
      let (szB, c2) := c1.read 2
      if szB.length < 2 then none
      else
        let sz := szB.getD 0 0 + 256 * szB.getD 1 0
        let (pyData, c3) := c2.read sz
        let s := pyStrip (removeNulls (decodeWordBytes gbk pyData))
        parsePyTable gbk n c3 ((idx, s) :: d)

/-- `parse_scel` (lines 52-94): read the 4-byte group count at 0x120 and
the 4-byte table size at 0x1540 (each `struct.unpack` raising on a short
read), build the phonetic table, then run the group loop. -/
def parse_scel (gbk : List Nat → Str) (buf : List Nat) : Option (List WordLibrary) :=
  let c0 : Cursor := ⟨buf, 0⟩
  let (dl, c1) := (c0.seek 0x120).read 4
  if dl.length < 4 then none
  else
    let dictLen := u32 dl
    let (pl, c2) := (c1.seek 0x1540).read 4
    if pl.length < 4 then none
    else
      match parsePyTable gbk (u32 pl) c2 [] with
      | none => none
      | some (d, c3) => some (parseGroups gbk c3 d dictLen).1

/-- The fixed 26-symbol fallback alphabet `a`..`z` of line 121,
`chr(97 + idx % 26)`. -/
def fallbackAlphabet : Str :=
  [97, 98, 99, 100, 101, 102, 103, 104, 105, 106, 107, 108, 109, 110, 111,
   112, 113, 114, 115, 116, 117, 118, 119, 120, 121, 122]

/-- The cursor advance of one homophone-loop iteration: 2 length bytes,
`word_len` word bytes, and the 12-byte trailer. -/
def recordStep (c : Cursor) : Cursor :=
  let lenData := (c.read 2).1
  let wordLen := lenData.getD 0 0 + 256 * lenData.getD 1 0
  ((((c.read 2).2).read wordLen).2.read 12).2

/-- The group header as `_parse_pinyin_word` reads it: `none` when fewer
than 4 bytes are available, else `(same_py_count, py_index_count)`. -/
def headerAt (c : Cursor) : Option (Nat × Nat) :=
  let h := c.rest.take 4
  if h.length < 4 then none
  else some (h.getD 0 0 + 256 * h.getD 1 0, h.getD 2 0 + 256 * h.getD 3 0)

/-- The `homophoneCount` a group's header declares (0 when no header fits). -/
def declaredCount (c : Cursor) : Nat :=
  match headerAt c with
  | some (cnt, _) => cnt
  | none => 0

/-- The homophone loop never hits its early break during `n` iterations
from `c`: each iteration finds at least the 2 length-prefix bytes. -/
def recordsOk : Cursor → Nat → Bool
  | _, 0 => true
  | c, n + 1 => if 2 ≤ c.remaining then recordsOk (recordStep c) n else false

/-- The group starting at `c` runs to completion: its 4-byte header is
available and none of its declared homophone records hits the early break. -/
def groupComplete (c : Cursor) : Bool :=
  match headerAt c with
  | none => false
  | some (_, pic) => recordsOk (((c.read 4).2.read pic).2) (declaredCount c)

/-- The declared homophone counts of the `n` groups parsed from `c`, in
file order (following exactly the cursor positions the group loop visits). -/
def declaredCounts (gbk : List Nat → Str) (d : PyDict) : Cursor → Nat → List Nat
  | _, 0 => []
  | c, n + 1 => declaredCount c :: declaredCounts gbk d (parsePinyinWord gbk c d).2 n

/-- Every one of the `n` groups parsed from `c` runs to completion. -/
def groupsComplete (gbk : List Nat → Str) (d : PyDict) : Cursor → Nat → Bool
  | _, 0 => true
  | c, n + 1 => groupComplete c && groupsComplete gbk d (parsePinyinWord gbk c d).2 n

/-- Stated from the claim's wording, for comparison with the code: the
number of *full* homophone records available at the front of a byte
stream, a full record being a 2-byte length prefix, the declared number of
word bytes, and the complete 12-byte trailer. -/
def specCompleteRecords : List Nat → Nat
  | b0 :: b1 :: rest =>
    let wlen := b0 + 256 * b1
    if wlen + 12 ≤ rest.length then 1 + specCompleteRecords (rest.drop (wlen + 12))
    else 0
  | _ => 0
termination_by l => l.length
decreasing_by
  simp only [List.length_cons, List.length_drop]
  omega

/-- A homophone record as laid out on disk: 2-byte little-endian length
prefix, the word bytes, then the 12-byte trailer. -/
def encodeRecord (wb tr : List Nat) : List Nat :=
  (wb.length % 256) :: (wb.length / 256) :: (wb ++ tr)

/-- A run of homophone records laid out back to back. -/
def encodeRecords (rs : List (List Nat × List Nat)) : List Nat :=
  (rs.map fun r => encodeRecord r.1 r.2).flatten

/-- `WordLibrary` with `pinyin` held by reference into the store. -/
structure WordLibraryRef where
  word : Str
  pinyinRef : Nat
  rank : Nat
deriving Repr, DecidableEq

/-- The homophone loop of lines 124-150, instrumented with the allocation
store: identical control flow and reads, with `word_py.copy()` modelled as
allocating a fresh store cell holding `wordPy`. -/
def parseHomophonesAlloc (gbk : List Nat → Str) (c : Cursor) (wordPy : List Str) :
    Nat → List (List Str) → List WordLibraryRef × Cursor × List (List Str)
  | 0, store => ([], c, store)
  | n + 1, store =>
    let (lenData, c1) := c.read 2
    if lenData.length < 2 then ([], c1, store)
    else
      let wordLen := lenData.getD 0 0 + 256 * lenData.getD 1 0
      let (wordData, c2) := c1.read wordLen
      let word := removeNulls (decodeWordBytes gbk wordData)
      let c3 := (c2.read 12).2
      let (restWords, c4, store2) :=
        parseHomophonesAlloc gbk c3 wordPy n (store ++ [wordPy])
      (⟨word, store.length, 1⟩ :: restWords, c4, store2)

/-- `_parse_pinyin_word` instrumented with the allocation store. -/
def parsePinyinWordAlloc (gbk : List Nat → Str) (c : Cursor) (d : PyDict)
    (store : List (List Str)) : List WordLibraryRef × Cursor × List (List Str) :=
  let (header, c1) := c.read 4
  if header.length < 4 then ([], c1, store)
  else
    let samePyCount := header.getD 0 0 + 256 * header.getD 1 0
    let pyIndexCount := header.getD 2 0 + 256 * header.getD 3 0
    let (pyData, c2) := c1.read pyIndexCount
    let wordPy := parseIndices d pyData
    parseHomophonesAlloc gbk c2 wordPy samePyCount store

/-! ### Byte-cursor laws -/

theorem Cursor.remaining_eq (c : Cursor) : c.remaining = c.rest.length := by
  simp [Cursor.remaining, Cursor.rest]

theorem Cursor.read_fst (c : Cursor) (n : Nat) : (c.read n).1 = c.rest.take n := rfl

theorem Cursor.read_snd_rest (c : Cursor) (n : Nat) :
    (c.read n).2.rest = c.rest.drop n := by
  show c.buf.drop (c.pos + ((c.buf.drop c.pos).take n).length) = _
  rw [← List.drop_drop]
  rw [show c.buf.drop c.pos = c.rest from rfl, List.length_take]
  rcases Nat.le_total n c.rest.length with h | h
  · rw [Nat.min_eq_left h]
  · rw [Nat.min_eq_right h, List.drop_eq_nil_of_le (Nat.le_refl _),
      List.drop_eq_nil_of_le h]

theorem Cursor.read_append_fst (c : Cursor) {xs ys : List Nat} (h : c.rest = xs ++ ys) :
    (c.read xs.length).1 = xs := by
  rw [Cursor.read_fst, h, List.take_left]

theorem Cursor.read_append_rest (c : Cursor) {xs ys : List Nat} (h : c.rest = xs ++ ys) :
    (c.read xs.length).2.rest = ys := by
  rw [Cursor.read_snd_rest, h, List.drop_left]

/-! ### Totality of the permissive UTF-16-LE decode -/

theorem decodeUnits_ignore_isSome : ∀ us : List Nat,
    (decodeUnits .ignoreErr us).isSome = true
  | [] => rfl
  | [u] => by
    unfold decodeUnits
    split <;> simp
  | u :: u2 :: us => by
    unfold decodeUnits
    split
    · simp [decodeUnits_ignore_isSome (u2 :: us)]
    · split
      · split
        · simp [decodeUnits_ignore_isSome us]
        · exact decodeUnits_ignore_isSome (u2 :: us)
      · exact decodeUnits_ignore_isSome (u2 :: us)

theorem utf16le_ignore_isSome (bs : List Nat) :
    (utf16le .ignoreErr bs).isSome = true := by
  unfold utf16le
  rcases h : utf16Units bs with ⟨us, oddTail⟩
  cases oddTail <;> simp [decodeUnits_ignore_isSome]

/-! ### Properties of truncation and stripping -/

theorem truncNull_no_zero (s : Str) : 0 ∉ truncNull s := by
  intro h
  have := List.mem_takeWhile_imp h
  simp at this

theorem pyStrip_subset (s : Str) : pyStrip s ⊆ s := by
  intro x hx
  unfold pyStrip at hx
  rw [List.mem_reverse] at hx
  have hx2 := (List.dropWhile_sublist _).subset hx
  rw [List.mem_reverse] at hx2
  exact (List.dropWhile_sublist _).subset hx2

theorem head?_dropWhile_false (p : Nat → Bool) :
    ∀ (l : List Nat) (x : Nat), (l.dropWhile p).head? = some x → p x = false
  | [], x => by simp [List.dropWhile]
  | a :: l, x => by
    cases h : p a with
    | true =>
      rw [List.dropWhile_cons_of_pos h]
      exact head?_dropWhile_false p l x
    | false =>
      rw [List.dropWhile_cons_of_neg (by simp [h])]
      intro hx
      simp at hx
      rw [hx] at h
      exact h

theorem getLast?_dropWhile_of_some (p : Nat → Bool) (l : List Nat) (x : Nat)
    (h : (l.dropWhile p).getLast? = some x) : l.getLast? = some x := by
  obtain ⟨u, hu⟩ := List.dropWhile_suffix (l := l) p
  rw [← hu, List.getLast?_append_of_ne_nil]
  · exact h
  · intro hnil
    rw [hnil] at h
    simp at h

theorem pyStrip_head?_not_space (s : Str) (x : Nat)
    (h : (pyStrip s).head? = some x) : isPySpace x = false := by
  unfold pyStrip at h
  rw [List.head?_reverse] at h
  have h2 := getLast?_dropWhile_of_some isPySpace _ x h
  rw [List.getLast?_reverse] at h2
  exact head?_dropWhile_false isPySpace s x h2

theorem pyStrip_getLast?_not_space (s : Str) (x : Nat)
    (h : (pyStrip s).getLast? = some x) : isPySpace x = false := by
  unfold pyStrip at h
  rw [List.getLast?_reverse] at h
  exact head?_dropWhile_false isPySpace _ x h

/-! ### Claim theorems -/

/-- C5: for every input byte span (the Text Field Decoder is total, so in
particular for all-zero, all-0xFF and odd-length spans it returns a string
without raising), the string returned by `_read_scel_field_text` contains
no null code point and neither starts nor ends with whitespace. -/
theorem c5_field_text_safe (gbk : List Nat → Str) (c : Cursor) (seekPos fieldLen : Nat) :
    0 ∉ (readFieldText gbk c seekPos fieldLen).1 ∧
    (∀ x, ((readFieldText gbk c seekPos fieldLen).1).head? = some x → isPySpace x = false) ∧
    (∀ x, ((readFieldText gbk c seekPos fieldLen).1).getLast? = some x → isPySpace x = false) := by
  refine ⟨?_, ?_, ?_⟩
  · intro h
    exact truncNull_no_zero _ (pyStrip_subset _ h)
  · exact fun x h => pyStrip_head?_not_space _ x h
  · exact fun x h => pyStrip_getLast?_not_space _ x h

/-- Witness for C5 at a concrete all-0xFF odd-length span: the decoded
field is `[0xFFFF]`, which contains no null, and its head (0xFFFF) is
not whitespace. -/
theorem c5_field_text_safe_witness :
    0 ∉ (readFieldText (fun _ => ([] : Str)) ⟨[0xFF, 0xFF, 0xFF], 0⟩ 0 64).1 ∧
    isPySpace 0xFFFF = false :=
  ⟨(c5_field_text_safe (fun _ => ([] : Str)) ⟨[0xFF, 0xFF, 0xFF], 0⟩ 0 64).1,
   (c5_field_text_safe (fun _ => ([] : Str)) ⟨[0xFF, 0xFF, 0xFF], 0⟩ 0 64).2.1
     0xFFFF (by decide)⟩

/-- C7: a Metadata Reader text-field read leaves the Byte Cursor's
position exactly where it was: `_read_scel_field_text` saves `f.tell()`,
seeks and reads out-of-band, and restores the saved position. -/
theorem c7_cursor_position_restored (gbk : List Nat → Str) (c : Cursor)
    (seekPos fieldLen : Nat) :
    ((readFieldText gbk c seekPos fieldLen).2).pos = c.pos := rfl

/-- C10: the Metadata Reader's primary decode runs UTF-16-LE with
`errors='ignore'`, which succeeds on every byte span, so the regional (GBK)
fallback branch of `_read_scel_field_text` is unreachable: the decoded
field equals the primary decode's output, with no dependency on `gbk`. -/
theorem c10_gbk_fallback_unreachable (gbk : List Nat → Str) (data : List Nat) :
    (utf16le .ignoreErr data).isSome = true ∧
    decodeFieldBytes gbk data = (utf16le .ignoreErr data).getD [] := by
  refine ⟨utf16le_ignore_isSome data, ?_⟩
  unfold decodeFieldBytes
  cases h : utf16le .ignoreErr data with
  | none =>
    have := utf16le_ignore_isSome data
    rw [h] at this
    simp at this
  | some t => simp


/-- C2: for every 16-bit phonetic index absent from the table, the spelling
appended by the index-resolution step is exactly the one character at
position `idx % 26` of the fixed 26-symbol alphabet, independent of the
table's contents. -/
theorem c2_fallback_spelling (d : PyDict) (idx : Nat) (h16 : idx < 65536)
    (habs : lookupIdx d idx = none) :
    lookupPy d idx = [fallbackAlphabet.getD (idx % 26) 0] ∧
    fallbackAlphabet.length = 26 ∧
    (∀ d' : PyDict, lookupIdx d' idx = none → lookupPy d' idx = lookupPy d idx) := by
  have hm : idx % 26 < 26 := Nat.mod_lt _ (by norm_num)
  have halpha : ∀ m, m < 26 → fallbackAlphabet.getD m 0 = 97 + m := by decide
  refine ⟨?_, rfl, ?_⟩
  · rw [lookupPy, habs, halpha _ hm]
  · intro d' habs'
    rw [lookupPy, habs', lookupPy, habs]

/-- Witness for C2: index 5 is absent from the one-entry table
`{3 ↦ "ma"}`, and its fallback spelling is `"f"` (code point 102). -/
theorem c2_fallback_spelling_witness :
    lookupPy [(3, [109, 97])] 5 = [fallbackAlphabet.getD (5 % 26) 0] ∧
    fallbackAlphabet.length = 26 ∧
    (∀ d' : PyDict, lookupIdx d' 5 = none → lookupPy d' 5 = lookupPy [(3, [109, 97])] 5) :=
  c2_fallback_spelling [(3, [109, 97])] 5 (by decide) (by decide)

/-- If fewer than 4 bytes are available for a group header,
`_parse_pinyin_word` returns no entries and leaves fewer than 4 bytes
available (it consumes whatever partial header bytes existed). -/
theorem parsePinyinWord_short (gbk : List Nat → Str) (c : Cursor) (d : PyDict)
    (h : c.remaining < 4) :
    (parsePinyinWord gbk c d).1 = [] ∧ (parsePinyinWord gbk c d).2.remaining < 4 := by
  rw [Cursor.remaining_eq] at h
  have hlen : ((c.read 4).1).length < 4 := by
    rw [Cursor.read_fst, List.length_take]
    omega
  have hrw : parsePinyinWord gbk c d = ([], (c.read 4).2) := by
    unfold parsePinyinWord
    simp only [hlen, if_pos]
  refine ⟨by rw [hrw], ?_⟩
  rw [hrw, Cursor.remaining_eq, Cursor.read_snd_rest]
  simp
  omega

/-- C4: when fewer than 4 bytes are available for an entry-group header,
the group stream is exhausted — the group loop produces no further entries
from any remaining iteration, and no error is raised. -/
theorem c4_short_header_stops (gbk : List Nat → Str) (d : PyDict) :
    ∀ (n : Nat) (c : Cursor), c.remaining < 4 → (parseGroups gbk c d n).1 = []
  | 0, c => fun _ => rfl
  | n + 1, c => by
    intro h
    obtain ⟨h1, h2⟩ := parsePinyinWord_short gbk c d h
    show ((parsePinyinWord gbk c d).1 ++ (parseGroups gbk (parsePinyinWord gbk c d).2 d n).1) = []
    rw [h1, c4_short_header_stops gbk d n _ h2]
    rfl

/-- Witness for C4: a 3-byte buffer cannot hold a group header, so five
group iterations produce no entries. -/
theorem c4_short_header_stops_witness :
    (parseGroups (fun _ => ([] : Str)) ⟨[1, 2, 3], 0⟩ [] 5).1 = [] :=
  c4_short_header_stops (fun _ => ([] : Str)) [] 5 ⟨[1, 2, 3], 0⟩ (by decide)

/-! ### Unfolding laws for the group parsers -/


theorem parseHomophones_succ (gbk : List Nat → Str) (wp : List Str) (c : Cursor) (n : Nat) :
    parseHomophones gbk c wp (n + 1) =
      if ((c.read 2).1).length < 2 then ([], (c.read 2).2)
      else
        (⟨removeNulls (decodeWordBytes gbk
            (((c.read 2).2).read ((c.read 2).1.getD 0 0 + 256 * (c.read 2).1.getD 1 0)).1),
          wp, 1⟩ :: (parseHomophones gbk (recordStep c) wp n).1,
         (parseHomophones gbk (recordStep c) wp n).2) := rfl

theorem parsePinyinWord_eq (gbk : List Nat → Str) (c : Cursor) (d : PyDict) :
    parsePinyinWord gbk c d =
      if ((c.read 4).1).length < 4 then ([], (c.read 4).2)
      else
        parseHomophones gbk
          (((c.read 4).2).read ((c.read 4).1.getD 2 0 + 256 * (c.read 4).1.getD 3 0)).2
          (parseIndices d
            ((((c.read 4).2).read ((c.read 4).1.getD 2 0 + 256 * (c.read 4).1.getD 3 0)).1))
          ((c.read 4).1.getD 0 0 + 256 * (c.read 4).1.getD 1 0) := rfl

theorem parseGroups_succ (gbk : List Nat → Str) (c : Cursor) (d : PyDict) (n : Nat) :
    parseGroups gbk c d (n + 1) =
      ((parsePinyinWord gbk c d).1 ++ (parseGroups gbk (parsePinyinWord gbk c d).2 d n).1,
       (parseGroups gbk (parsePinyinWord gbk c d).2 d n).2) := rfl


theorem headerAt_some (c : Cursor) (cnt pic : Nat) (h : headerAt c = some (cnt, pic)) :
    ¬(((c.read 4).1).length < 4) ∧
    cnt = (c.read 4).1.getD 0 0 + 256 * (c.read 4).1.getD 1 0 ∧
    pic = (c.read 4).1.getD 2 0 + 256 * (c.read 4).1.getD 3 0 := by
  simp only [headerAt] at h
  rw [Cursor.read_fst]
  by_cases h4 : (c.rest.take 4).length < 4
  · rw [if_pos h4] at h
    exact absurd h (by simp)
  · rw [if_neg h4] at h
    simp only [Option.some.injEq, Prod.mk.injEq] at h
    exact ⟨h4, h.1.symm, h.2.symm⟩

theorem parseIndices_length (d : PyDict) : ∀ l : List Nat,
    (parseIndices d l).length = l.length / 2
  | [] => by simp [parseIndices]
  | [x] => by simp [parseIndices]
  | x :: y :: rest => by
    have ih := parseIndices_length d rest
    simp [parseIndices, ih]
    omega

theorem parseHomophones_pinyin (gbk : List Nat → Str) (wp : List Str) :
    ∀ (n : Nat) (c : Cursor), ∀ w ∈ (parseHomophones gbk c wp n).1, w.pinyin = wp
  | 0, c => by simp [parseHomophones]
  | n + 1, c => by
    intro w hw
    rw [parseHomophones_succ] at hw
    by_cases h2 : ((c.read 2).1).length < 2
    · rw [if_pos h2] at hw
      simp at hw
    · rw [if_neg h2] at hw
      rcases List.mem_cons.mp hw with hw | hw
      · rw [hw]
      · exact parseHomophones_pinyin gbk wp n (recordStep c) w hw

/-- C9: in every group whose phonetic-index bytes are fully available,
every produced entry's spelling sequence has exactly
`py_index_count / 2` elements — one per complete 2-byte index pair, an
odd trailing byte contributing nothing. -/
theorem c9_pinyin_length (gbk : List Nat → Str) (c : Cursor) (d : PyDict)
    (cnt pic : Nat) (hh : headerAt c = some (cnt, pic))
    (hav : 4 + pic ≤ c.remaining) :
    ∀ w ∈ (parsePinyinWord gbk c d).1, w.pinyin.length = pic / 2 := by
  obtain ⟨h4, hcnt, hpic⟩ := headerAt_some c cnt pic hh
  intro w hw
  rw [parsePinyinWord_eq, if_neg h4, ← hpic, ← hcnt] at hw
  have hwp := parseHomophones_pinyin gbk _ cnt _ w hw
  rw [hwp]
  -- the index bytes are fully available, so exactly `pic` of them are read
  have hrest : ((c.read 4).2).rest.length = c.rest.length - 4 := by
    rw [Cursor.read_snd_rest, List.length_drop]
  have hlen : ((((c.read 4).2).read pic).1).length = pic := by
    rw [Cursor.read_fst, List.length_take, hrest]
    rw [Cursor.remaining_eq] at hav
    omega
  rw [parseIndices_length, hlen]

/-- Witness for C9: a group with header `{cnt=2, pic=2}` and one index
pair yields entries whose spelling sequences all have length `2 / 2 = 1`. -/
theorem c9_pinyin_length_witness :
    headerAt ⟨[2, 0, 2, 0, 0, 0, 2, 0, 65, 0, 0, 0, 0, 0, 0, 0, 0, 0, 0, 0, 0, 0,
               2, 0, 66, 0, 0, 0, 0, 0, 0, 0, 0, 0, 0, 0, 0, 0], 0⟩ = some (2, 2) ∧
    ∀ w ∈ (parsePinyinWord (fun _ => ([] : Str))
        ⟨[2, 0, 2, 0, 0, 0, 2, 0, 65, 0, 0, 0, 0, 0, 0, 0, 0, 0, 0, 0, 0, 0,
          2, 0, 66, 0, 0, 0, 0, 0, 0, 0, 0, 0, 0, 0, 0, 0], 0⟩ [(0, [109, 97])]).1,
      w.pinyin.length = 2 / 2 :=
  ⟨by decide,
   c9_pinyin_length (fun _ => ([] : Str))
     ⟨[2, 0, 2, 0, 0, 0, 2, 0, 65, 0, 0, 0, 0, 0, 0, 0, 0, 0, 0, 0, 0, 0,
       2, 0, 66, 0, 0, 0, 0, 0, 0, 0, 0, 0, 0, 0, 0, 0], 0⟩ [(0, [109, 97])]
     2 2 (by decide) (by decide)⟩

/-! ### Complete groups contribute exactly their declared homophone count -/


theorem parseHomophones_length_of_recordsOk (gbk : List Nat → Str) (wp : List Str) :
    ∀ (n : Nat) (c : Cursor), recordsOk c n = true →
      (parseHomophones gbk c wp n).1.length = n
  | 0, _ => fun _ => rfl
  | n + 1, c => by
    intro h
    unfold recordsOk at h
    by_cases h2 : 2 ≤ c.remaining
    · rw [if_pos h2] at h
      have hlen : ¬(((c.read 2).1).length < 2) := by
        rw [Cursor.read_fst, List.length_take]
        rw [Cursor.remaining_eq] at h2
        omega
      rw [parseHomophones_succ, if_neg hlen]
      simp only [List.length_cons]
      rw [parseHomophones_length_of_recordsOk gbk wp n (recordStep c) h]
    · rw [if_neg h2] at h
      exact absurd h (by simp)

theorem parsePinyinWord_length_of_complete (gbk : List Nat → Str) (c : Cursor)
    (d : PyDict) (h : groupComplete c = true) :
    (parsePinyinWord gbk c d).1.length = declaredCount c := by
  unfold groupComplete at h
  cases hh : headerAt c with
  | none => rw [hh] at h; exact absurd h (by simp)
  | some p =>
    rcases p with ⟨cnt, pic⟩
    rw [hh] at h
    obtain ⟨h4, hcnt, hpic⟩ := headerAt_some c cnt pic hh
    have hdc : declaredCount c = cnt := by unfold declaredCount; rw [hh]
    rw [hdc] at h ⊢
    rw [parsePinyinWord_eq, if_neg h4, ← hpic, ← hcnt]
    exact parseHomophones_length_of_recordsOk gbk _ cnt _ h


/-- C1: on a well-formed stream — every group runs to completion, hitting
no Truncated/MalformedGroup condition — the number of entries returned by
the group loop equals the sum of the groups' declared homophone counts,
each group contributing exactly its declared count, in file order. -/
theorem c1_entry_count (gbk : List Nat → Str) (d : PyDict) :
    ∀ (n : Nat) (c : Cursor), groupsComplete gbk d c n = true →
      (parseGroups gbk c d n).1.length = (declaredCounts gbk d c n).sum
  | 0, _ => fun _ => rfl
  | n + 1, c => by
    intro h
    unfold groupsComplete at h
    rw [Bool.and_eq_true] at h
    rw [parseGroups_succ]
    simp only [List.length_append]
    rw [parsePinyinWord_length_of_complete gbk c d h.1,
      c1_entry_count gbk d n _ h.2]
    show _ = (declaredCount c :: declaredCounts gbk d (parsePinyinWord gbk c d).2 n).sum
    rw [List.sum_cons]

/-- Witness for C1: a stream holding one complete group (2 homophones)
followed by a second complete group (1 homophone) yields 3 = 2 + 1
entries. -/
theorem c1_entry_count_witness :
    groupsComplete (fun _ => ([] : Str)) [(0, [109, 97])]
      ⟨[2, 0, 2, 0, 0, 0, 2, 0, 65, 0, 0, 0, 0, 0, 0, 0, 0, 0, 0, 0, 0, 0,
        2, 0, 66, 0, 0, 0, 0, 0, 0, 0, 0, 0, 0, 0, 0, 0,
        1, 0, 2, 0, 5, 0, 2, 0, 67, 0, 0, 0, 0, 0, 0, 0, 0, 0, 0, 0, 0, 0], 0⟩ 2 = true ∧
    (parseGroups (fun _ => ([] : Str))
      ⟨[2, 0, 2, 0, 0, 0, 2, 0, 65, 0, 0, 0, 0, 0, 0, 0, 0, 0, 0, 0, 0, 0,
        2, 0, 66, 0, 0, 0, 0, 0, 0, 0, 0, 0, 0, 0, 0, 0,
        1, 0, 2, 0, 5, 0, 2, 0, 67, 0, 0, 0, 0, 0, 0, 0, 0, 0, 0, 0, 0, 0], 0⟩
      [(0, [109, 97])] 2).1.length =
    (declaredCounts (fun _ => ([] : Str)) [(0, [109, 97])]
      ⟨[2, 0, 2, 0, 0, 0, 2, 0, 65, 0, 0, 0, 0, 0, 0, 0, 0, 0, 0, 0, 0, 0,
        2, 0, 66, 0, 0, 0, 0, 0, 0, 0, 0, 0, 0, 0, 0, 0,
        1, 0, 2, 0, 5, 0, 2, 0, 67, 0, 0, 0, 0, 0, 0, 0, 0, 0, 0, 0, 0, 0], 0⟩ 2).sum :=
  ⟨by decide,
   c1_entry_count (fun _ => ([] : Str)) [(0, [109, 97])] 2
     ⟨[2, 0, 2, 0, 0, 0, 2, 0, 65, 0, 0, 0, 0, 0, 0, 0, 0, 0, 0, 0, 0, 0,
       2, 0, 66, 0, 0, 0, 0, 0, 0, 0, 0, 0, 0, 0, 0, 0,
       1, 0, 2, 0, 5, 0, 2, 0, 67, 0, 0, 0, 0, 0, 0, 0, 0, 0, 0, 0, 0, 0], 0⟩
     (by decide)⟩

/-! ### Partial groups: where the homophone loop actually stops -/


/-- Counterexample to C3 as stated: a group declaring 1 homophone whose
stream holds only a 2-byte length prefix claiming 5 word bytes and nothing
else.  Zero full homophone records are available, yet the decoder emits 1
entry (with an empty word) rather than stopping before the partial
record. -/
theorem c3_counterexample :
    specCompleteRecords [5, 0] = 0 ∧
    (parsePinyinWord (fun _ => ([] : Str)) ⟨[1, 0, 0, 0, 5, 0], 0⟩ []).1.length = 1 := by
  constructor
  · simp [specCompleteRecords]
  · decide


/-- C3 (amended): the homophone loop stops early exactly at its length
prefix read — when the bytes remaining for the group form exactly `k` full
records with `k ≤ homophoneCount`, the loop emits exactly `k` entries and
returns normally (no exception reaches the group loop).  A record whose
2-byte length prefix is readable but whose word or trailer bytes under-run
is, however, still emitted best-effort (see the counterexample). -/
theorem c3_partial_group_stops_at_length_read (gbk : List Nat → Str) (wp : List Str) :
    ∀ (rs : List (List Nat × List Nat)) (c : Cursor) (n : Nat),
      c.rest = encodeRecords rs → rs.length ≤ n →
      (∀ r ∈ rs, r.2.length = 12) →
      (parseHomophones gbk c wp n).1.length = rs.length
  | [], c, n => by
    intro hrest _ _
    cases n with
    | zero => rfl
    | succ m =>
      have hrest0 : c.rest = [] := by simpa [encodeRecords] using hrest
      have h2 : ((c.read 2).1).length < 2 := by
        rw [Cursor.read_fst, hrest0]
        simp
      rw [parseHomophones_succ, if_pos h2]
      rfl
  | (wb, tr) :: rs, c, n => by
    intro hrest hn hwf
    cases n with
    | zero => exact absurd hn (by simp)
    | succ m =>
      have htr : tr.length = 12 := hwf (wb, tr) (List.mem_cons_self _ _)
      have hrest' : c.rest =
          [wb.length % 256, wb.length / 256] ++ (wb ++ (tr ++ encodeRecords rs)) := by
        rw [hrest]
        simp [encodeRecords, encodeRecord]
      have h2 : (c.read 2).1 = [wb.length % 256, wb.length / 256] := by
        have := Cursor.read_append_fst c hrest'
        simpa using this
      have h2r : ((c.read 2).2).rest = wb ++ (tr ++ encodeRecords rs) := by
        have := Cursor.read_append_rest c hrest'
        simpa using this
      have hlen2 : ¬(((c.read 2).1).length < 2) := by rw [h2]; simp
      have hwl : (c.read 2).1.getD 0 0 + 256 * (c.read 2).1.getD 1 0 = wb.length := by
        rw [h2]
        show wb.length % 256 + 256 * (wb.length / 256) = wb.length
        exact Nat.mod_add_div _ _
      have hwr : (((c.read 2).2).read wb.length).2.rest = tr ++ encodeRecords rs := by
        have := Cursor.read_append_rest ((c.read 2).2) h2r
        exact this
      have htrr : ((((c.read 2).2).read wb.length).2.read 12).2.rest = encodeRecords rs := by
        rw [← htr]
        exact Cursor.read_append_rest _ hwr
      have hstep : recordStep c = ((((c.read 2).2).read wb.length).2.read 12).2 := by
        show ((((c.read 2).2).read
          ((c.read 2).1.getD 0 0 + 256 * (c.read 2).1.getD 1 0)).2.read 12).2 = _
        rw [hwl]
      rw [parseHomophones_succ, if_neg hlen2]
      simp only [List.length_cons]
      rw [c3_partial_group_stops_at_length_read gbk wp rs (recordStep c) m
        (by rw [hstep]; exact htrr) (Nat.le_of_succ_le_succ hn)
        (fun r hr => hwf r (List.mem_cons_of_mem _ hr))]

/-- Witness for C3 (amended), realising the spec's scenario C shape: a
stream holding exactly 2 full records while the loop is asked for 3
iterations emits exactly 2 entries. -/
theorem c3_partial_group_witness :
    (⟨encodeRecords [([65, 0], [0, 0, 0, 0, 0, 0, 0, 0, 0, 0, 0, 0]),
                     ([66, 0], [0, 0, 0, 0, 0, 0, 0, 0, 0, 0, 0, 0])], 0⟩ : Cursor).rest =
      encodeRecords [([65, 0], [0, 0, 0, 0, 0, 0, 0, 0, 0, 0, 0, 0]),
                     ([66, 0], [0, 0, 0, 0, 0, 0, 0, 0, 0, 0, 0, 0])] ∧
    (parseHomophones (fun _ => ([] : Str))
      ⟨encodeRecords [([65, 0], [0, 0, 0, 0, 0, 0, 0, 0, 0, 0, 0, 0]),
                      ([66, 0], [0, 0, 0, 0, 0, 0, 0, 0, 0, 0, 0, 0])], 0⟩
      [[109, 97]] 3).1.length = 2 :=
  ⟨by decide,
   c3_partial_group_stops_at_length_read (fun _ => ([] : Str)) [[109, 97]]
     [([65, 0], [0, 0, 0, 0, 0, 0, 0, 0, 0, 0, 0, 0]),
      ([66, 0], [0, 0, 0, 0, 0, 0, 0, 0, 0, 0, 0, 0])]
     ⟨encodeRecords [([65, 0], [0, 0, 0, 0, 0, 0, 0, 0, 0, 0, 0, 0]),
                     ([66, 0], [0, 0, 0, 0, 0, 0, 0, 0, 0, 0, 0, 0])], 0⟩ 3
     (by decide) (by decide) (by decide)⟩

/-! ### Independent copies of the group's spelling sequence

Aliasing is invisible in a pure model, so the homophone loop is restated
with an explicit allocation store: each Python list object lives in a
store cell and a `WordLibrary` holds a reference (cell index) to its
`pinyin` list.  `word_py.copy()` on line 148 allocates a fresh cell per
entry; mutating one cell (`List.set` on the store) models in-place
mutation of one entry's list object. -/


theorem parseHomophonesAlloc_succ (gbk : List Nat → Str) (wp : List Str) (c : Cursor)
    (n : Nat) (store : List (List Str)) :
    parseHomophonesAlloc gbk c wp (n + 1) store =
      if ((c.read 2).1).length < 2 then ([], (c.read 2).2, store)
      else
        (⟨removeNulls (decodeWordBytes gbk
            (((c.read 2).2).read ((c.read 2).1.getD 0 0 + 256 * (c.read 2).1.getD 1 0)).1),
          store.length, 1⟩ :: (parseHomophonesAlloc gbk (recordStep c) wp n (store ++ [wp])).1,
         (parseHomophonesAlloc gbk (recordStep c) wp n (store ++ [wp])).2.1,
         (parseHomophonesAlloc gbk (recordStep c) wp n (store ++ [wp])).2.2) := rfl

theorem parseHomophonesAlloc_spec (gbk : List Nat → Str) (wp : List Str) :
    ∀ (n : Nat) (c : Cursor) (store : List (List Str)),
      (parseHomophonesAlloc gbk c wp n store).2.2 =
        store ++ List.replicate (parseHomophonesAlloc gbk c wp n store).1.length wp ∧
      (parseHomophonesAlloc gbk c wp n store).1.map (·.pinyinRef) =
        List.range' store.length (parseHomophonesAlloc gbk c wp n store).1.length
  | 0, c, store => by simp [parseHomophonesAlloc]
  | n + 1, c, store => by
    by_cases h2 : ((c.read 2).1).length < 2
    · rw [parseHomophonesAlloc_succ, if_pos h2]
      simp
    · have ih := parseHomophonesAlloc_spec gbk wp n (recordStep c) (store ++ [wp])
      rw [parseHomophonesAlloc_succ, if_neg h2]
      refine ⟨?_, ?_⟩
      · rw [ih.1]
        simp only [List.length_cons, List.append_assoc, List.singleton_append]
        rw [List.replicate_succ]
      · simp only [List.map_cons, ih.2, List.length_cons, List.length_append,
          List.length_cons, List.length_nil, List.range'_succ, Nat.add_zero,
          Nat.zero_add]

theorem parsePinyinWordAlloc_eq (gbk : List Nat → Str) (c : Cursor) (d : PyDict)
    (store : List (List Str)) :
    parsePinyinWordAlloc gbk c d store =
      if ((c.read 4).1).length < 4 then ([], (c.read 4).2, store)
      else
        parseHomophonesAlloc gbk
          (((c.read 4).2).read ((c.read 4).1.getD 2 0 + 256 * (c.read 4).1.getD 3 0)).2
          (parseIndices d
            ((((c.read 4).2).read ((c.read 4).1.getD 2 0 + 256 * (c.read 4).1.getD 3 0)).1))
          ((c.read 4).1.getD 0 0 + 256 * (c.read 4).1.getD 1 0) store := rfl

theorem parsePinyinWordAlloc_spec (gbk : List Nat → Str) (c : Cursor) (d : PyDict)
    (store : List (List Str)) :
    ∃ wp : List Str,
      (parsePinyinWordAlloc gbk c d store).2.2 =
        store ++ List.replicate (parsePinyinWordAlloc gbk c d store).1.length wp ∧
      (parsePinyinWordAlloc gbk c d store).1.map (·.pinyinRef) =
        List.range' store.length (parsePinyinWordAlloc gbk c d store).1.length := by
  by_cases h4 : ((c.read 4).1).length < 4
  · refine ⟨[], ?_⟩
    rw [parsePinyinWordAlloc_eq, if_pos h4]
    simp
  · rw [parsePinyinWordAlloc_eq, if_neg h4]
    exact ⟨_, parseHomophonesAlloc_spec gbk _ _ _ _⟩

/-- C6: any two distinct entries produced within one entry group carry
element-wise equal spelling sequences stored in distinct store cells —
mutating one entry's list (a `List.set` on its cell) leaves every sibling's
dereferenced sequence unchanged. -/
theorem c6_independent_copies (gbk : List Nat → Str) (c : Cursor) (d : PyDict)
    (store : List (List Str)) (i j : Nat) (hij : i ≠ j)
    (hi : i < (parsePinyinWordAlloc gbk c d store).1.length)
    (hj : j < (parsePinyinWordAlloc gbk c d store).1.length) :
    ((parsePinyinWordAlloc gbk c d store).1.get ⟨i, hi⟩).pinyinRef ≠
      ((parsePinyinWordAlloc gbk c d store).1.get ⟨j, hj⟩).pinyinRef ∧
    (parsePinyinWordAlloc gbk c d store).2.2.getD
        ((parsePinyinWordAlloc gbk c d store).1.get ⟨i, hi⟩).pinyinRef [] =
      (parsePinyinWordAlloc gbk c d store).2.2.getD
        ((parsePinyinWordAlloc gbk c d store).1.get ⟨j, hj⟩).pinyinRef [] ∧
    ∀ v : List Str,
      ((parsePinyinWordAlloc gbk c d store).2.2.set
          ((parsePinyinWordAlloc gbk c d store).1.get ⟨i, hi⟩).pinyinRef v).getD
        ((parsePinyinWordAlloc gbk c d store).1.get ⟨j, hj⟩).pinyinRef [] =
      (parsePinyinWordAlloc gbk c d store).2.2.getD
        ((parsePinyinWordAlloc gbk c d store).1.get ⟨j, hj⟩).pinyinRef [] := by
  obtain ⟨wp, hst, hrefs⟩ := parsePinyinWordAlloc_spec gbk c d store
  have href : ∀ (m : Nat) (hm : m < (parsePinyinWordAlloc gbk c d store).1.length),
      ((parsePinyinWordAlloc gbk c d store).1.get ⟨m, hm⟩).pinyinRef = store.length + m := by
    intro m hm
    have h1 : ((parsePinyinWordAlloc gbk c d store).1.map (·.pinyinRef))[m]? =
        (List.range' store.length (parsePinyinWordAlloc gbk c d store).1.length)[m]? := by
      rw [hrefs]
    rw [List.getElem?_map, List.getElem?_eq_getElem hm,
      List.getElem?_range' _ _ (by simpa using hm)] at h1
    simpa using h1
  have hval : ∀ (m : Nat) (hm : m < (parsePinyinWordAlloc gbk c d store).1.length),
      (parsePinyinWordAlloc gbk c d store).2.2.getD
        ((parsePinyinWordAlloc gbk c d store).1.get ⟨m, hm⟩).pinyinRef [] = wp := by
    intro m hm
    rw [href m hm, hst, List.getD_eq_getElem?_getD,
      List.getElem?_append_right (Nat.le_add_right _ _)]
    simp [hm]
  refine ⟨?_, ?_, ?_⟩
  · rw [href i hi, href j hj]
    omega
  · rw [hval i hi, hval j hj]
  · intro v
    rw [List.getD_eq_getElem?_getD, List.getD_eq_getElem?_getD,
      List.getElem?_set_ne]
    rw [href i hi, href j hj]
    omega

/-- Witness for C6: in a two-entry group the two entries have distinct
store cells, equal dereferenced spelling sequences, and overwriting
entry 0's cell leaves entry 1's sequence intact. -/
theorem c6_independent_copies_witness :
    ((parsePinyinWordAlloc (fun _ => ([] : Str))
        ⟨[2, 0, 2, 0, 0, 0, 2, 0, 65, 0, 0, 0, 0, 0, 0, 0, 0, 0, 0, 0, 0, 0,
          2, 0, 66, 0, 0, 0, 0, 0, 0, 0, 0, 0, 0, 0, 0, 0], 0⟩
        [(0, [109, 97])] []).1.get ⟨0, by decide⟩).pinyinRef ≠
      ((parsePinyinWordAlloc (fun _ => ([] : Str))
        ⟨[2, 0, 2, 0, 0, 0, 2, 0, 65, 0, 0, 0, 0, 0, 0, 0, 0, 0, 0, 0, 0, 0,
          2, 0, 66, 0, 0, 0, 0, 0, 0, 0, 0, 0, 0, 0, 0, 0], 0⟩
        [(0, [109, 97])] []).1.get ⟨1, by decide⟩).pinyinRef ∧
    (parsePinyinWordAlloc (fun _ => ([] : Str))
        ⟨[2, 0, 2, 0, 0, 0, 2, 0, 65, 0, 0, 0, 0, 0, 0, 0, 0, 0, 0, 0, 0, 0,
          2, 0, 66, 0, 0, 0, 0, 0, 0, 0, 0, 0, 0, 0, 0, 0], 0⟩
        [(0, [109, 97])] []).2.2.getD
      ((parsePinyinWordAlloc (fun _ => ([] : Str))
        ⟨[2, 0, 2, 0, 0, 0, 2, 0, 65, 0, 0, 0, 0, 0, 0, 0, 0, 0, 0, 0, 0, 0,
          2, 0, 66, 0, 0, 0, 0, 0, 0, 0, 0, 0, 0, 0, 0, 0], 0⟩
        [(0, [109, 97])] []).1.get ⟨0, by decide⟩).pinyinRef [] =
      (parsePinyinWordAlloc (fun _ => ([] : Str))
        ⟨[2, 0, 2, 0, 0, 0, 2, 0, 65, 0, 0, 0, 0, 0, 0, 0, 0, 0, 0, 0, 0, 0,
          2, 0, 66, 0, 0, 0, 0, 0, 0, 0, 0, 0, 0, 0, 0, 0], 0⟩
        [(0, [109, 97])] []).2.2.getD
      ((parsePinyinWordAlloc (fun _ => ([] : Str))
        ⟨[2, 0, 2, 0, 0, 0, 2, 0, 65, 0, 0, 0, 0, 0, 0, 0, 0, 0, 0, 0, 0, 0,
          2, 0, 66, 0, 0, 0, 0, 0, 0, 0, 0, 0, 0, 0, 0, 0], 0⟩
        [(0, [109, 97])] []).1.get ⟨1, by decide⟩).pinyinRef [] ∧
    ∀ v : List Str,
      ((parsePinyinWordAlloc (fun _ => ([] : Str))
        ⟨[2, 0, 2, 0, 0, 0, 2, 0, 65, 0, 0, 0, 0, 0, 0, 0, 0, 0, 0, 0, 0, 0,
          2, 0, 66, 0, 0, 0, 0, 0, 0, 0, 0, 0, 0, 0, 0, 0], 0⟩
        [(0, [109, 97])] []).2.2.set
        ((parsePinyinWordAlloc (fun _ => ([] : Str))
          ⟨[2, 0, 2, 0, 0, 0, 2, 0, 65, 0, 0, 0, 0, 0, 0, 0, 0, 0, 0, 0, 0, 0,
            2, 0, 66, 0, 0, 0, 0, 0, 0, 0, 0, 0, 0, 0, 0, 0], 0⟩
          [(0, [109, 97])] []).1.get ⟨0, by decide⟩).pinyinRef v).getD
        ((parsePinyinWordAlloc (fun _ => ([] : Str))
          ⟨[2, 0, 2, 0, 0, 0, 2, 0, 65, 0, 0, 0, 0, 0, 0, 0, 0, 0, 0, 0, 0, 0,
            2, 0, 66, 0, 0, 0, 0, 0, 0, 0, 0, 0, 0, 0, 0, 0], 0⟩
          [(0, [109, 97])] []).1.get ⟨1, by decide⟩).pinyinRef [] =
      (parsePinyinWordAlloc (fun _ => ([] : Str))
        ⟨[2, 0, 2, 0, 0, 0, 2, 0, 65, 0, 0, 0, 0, 0, 0, 0, 0, 0, 0, 0, 0, 0,
          2, 0, 66, 0, 0, 0, 0, 0, 0, 0, 0, 0, 0, 0, 0, 0], 0⟩
        [(0, [109, 97])] []).2.2.getD
      ((parsePinyinWordAlloc (fun _ => ([] : Str))
        ⟨[2, 0, 2, 0, 0, 0, 2, 0, 65, 0, 0, 0, 0, 0, 0, 0, 0, 0, 0, 0, 0, 0,
          2, 0, 66, 0, 0, 0, 0, 0, 0, 0, 0, 0, 0, 0, 0, 0], 0⟩
        [(0, [109, 97])] []).1.get ⟨1, by decide⟩).pinyinRef [] :=
  c6_independent_copies (fun _ => ([] : Str))
    ⟨[2, 0, 2, 0, 0, 0, 2, 0, 65, 0, 0, 0, 0, 0, 0, 0, 0, 0, 0, 0, 0, 0,
      2, 0, 66, 0, 0, 0, 0, 0, 0, 0, 0, 0, 0, 0, 0, 0], 0⟩
    [(0, [109, 97])] [] 0 1 (by decide) (by decide) (by decide)

/-! ### Where the Metadata Reader can actually fail -/

/-- Counterexample to C8 as stated: a 0x200-byte file is far shorter than
0xD40 + 1024 = 0x1140 bytes, yet `read_scel_info` succeeds — the four text
fields are best-effort reads (`f.read` returns partial data and the
permissive decode never raises), so no Truncated error occurs. -/
theorem c8_counterexample :
    (read_scel_info (fun _ => ([] : Str)) (List.replicate 0x200 0)).isSome = true ∧
    (0x200 : Nat) < 0xD40 + 1024 := by
  constructor
  · decide
  · decide

/-- C8 (amended): the Metadata Reader has no error condition other than
Truncated, and it fails exactly when the file is shorter than 0x128 bytes
(offset 0x124 plus the 4-byte width of `wordCount`, the only atomic read);
the fixed-offset text fields are read best-effort and never raise. -/
theorem c8_truncated_iff (gbk : List Nat → Str) (buf : List Nat) :
    (read_scel_info gbk buf).isSome = true ↔ 0x128 ≤ buf.length := by
  have hlen : (((Cursor.seek ⟨buf, 0⟩ 0x124).read 4).1).length = min 4 (buf.length - 0x124) := by
    rw [Cursor.read_fst]
    show (((⟨buf, 0x124⟩ : Cursor).rest).take 4).length = _
    rw [List.length_take]
    show min 4 ((buf.drop 0x124).length) = _
    rw [List.length_drop]
  simp only [read_scel_info]
  by_cases hb : (((Cursor.seek ⟨buf, 0⟩ 0x124).read 4).1).length < 4
  · rw [if_pos hb]
    rw [hlen] at hb
    simp only [Option.isSome_none, Bool.false_eq_true, false_iff]
    omega
  · rw [if_neg hb]
    rw [hlen] at hb
    simp only [Option.isSome_some, true_iff]
    omega
